import Mathlib

/-!
Verification development for the fog-of-war buffering/dissolve pipeline.

The development shallowly embeds the two core source files:
  * `src/hashable_point.rs` — spatial deduplication (round to a 10 m grid,
    dedup by rounded key, statistics);
  * `src/buffer.rs` — chunked buffering, dissolve, polygon explosion and
    small-hole removal.

Coordinates are modelled as exact rationals (`ℚ`); `f64` rounding of
arithmetic is neglected, but `f64`-specific operations that the code relies
on (round half away from zero, truncating cast to `i64`, the `f64` value of
`std::f64::consts::PI`) are modelled exactly.  External GEOS operations
(linear-ring validity, polygon construction, area) are not part of the
repository's sources; they are modelled from the spec where needed, each
with a doc comment saying so.
-/

namespace FogOfWar

/-- A planar point, `geo::Point<f64>` modelled over exact rationals. -/
abbrev Pt := ℚ × ℚ

/-- Rust `f64::round`: round to nearest integer, ties away from zero. -/
def roundTiesAway (x : ℚ) : ℤ :=
  if x < 0 then -⌊-x + 1/2⌋ else ⌊x + 1/2⌋

/-- Rust `as i64` on an `f64`: truncation toward zero. -/
def truncToInt (x : ℚ) : ℤ :=
  if x < 0 then -⌊-x⌋ else ⌊x⌋

/-- Source `round_to_10_meters` from `src/hashable_point.rs`:
`x = (point.x() / 10.0).round() * 10.0` and likewise for `y`. -/
def round_to_10_meters (point : Pt) : Pt :=
  ((roundTiesAway (point.1 / 10) : ℚ) * 10, (roundTiesAway (point.2 / 10) : ℚ) * 10)

/-- Source `round_to_1_meter` from `src/hashable_point.rs`. -/
def round_to_1_meter (point : Pt) : Pt :=
  ((roundTiesAway point.1 : ℚ), (roundTiesAway point.2 : ℚ))

/-- Source `HashablePoint` from `src/hashable_point.rs`: equality and hashing use
only the rounded integer key; `original` stores the rounded point. -/
structure HashablePoint where
  x_rounded : ℤ
  y_rounded : ℤ
  original : Pt
deriving DecidableEq, Repr

/-- Source `impl From<Point> for HashablePoint`: the stored point is the rounded
point, and the key is the rounded coordinates cast `as i64`. -/
def HashablePoint.ofPoint (point : Pt) : HashablePoint :=
  let rounded_point := round_to_10_meters point
  { x_rounded := truncToInt rounded_point.1
    y_rounded := truncToInt rounded_point.2
    original := rounded_point }

/-- The equality/hash key of a `HashablePoint` (its `PartialEq`/`Hash` data). -/
def HashablePoint.key (h : HashablePoint) : ℤ × ℤ :=
  (h.x_rounded, h.y_rounded)

/-- One insertion step of collecting `HashablePoint`s into a `HashSet`:
an element whose key is already present is dropped.  Which representative of
a key survives is immaterial for point output, because every
`HashablePoint` with a given key stores the same (rounded) `original`;
this model keeps the first. -/
def insertByKey (acc : List HashablePoint) (h : HashablePoint) : List HashablePoint :=
  if acc.any (fun h2 => h2.key = h.key) then acc else acc ++ [h]

/-- Collecting an iterator of `HashablePoint`s into a `HashSet`
(`points.into_par_iter().map(HashablePoint::from).collect()`), modelled as a
left fold of key-unique insertion.  The `HashSet` iteration order is
unspecified; claims about the output are stated at set level. -/
def collectSet (l : List HashablePoint) : List HashablePoint :=
  l.foldl insertByKey []

/-- Source `SanitizeStats` from `src/hashable_point.rs`. -/
structure SanitizeStats where
  final_count : ℕ
  removed_count : ℕ
  removal_percentage : ℚ
deriving DecidableEq, Repr

/-- Source `sanitize` from `src/hashable_point.rs`: round every point to the 10 m
grid, deduplicate by rounded key, and report statistics.  The empty input
returns early with all-zero stats. -/
def sanitize (points : List Pt) : List Pt × SanitizeStats :=
  let original_count := points.length
  if original_count = 0 then
    (points, { final_count := 0, removed_count := 0, removal_percentage := 0 })
  else
    let unique_points := collectSet (points.map HashablePoint.ofPoint)
    let sanitized_points := unique_points.map HashablePoint.original
    let final_count := sanitized_points.length
    let removed_count := original_count - final_count
    let removal_percentage := ((removed_count : ℚ) / (original_count : ℚ)) * 100
    (sanitized_points,
      { final_count := final_count
        removed_count := removed_count
        removal_percentage := removal_percentage })

/-- Source `sanitize_to_1m_no_dedup` from `src/hashable_point.rs`: round every
point to 1 m, no deduplication. -/
def sanitize_to_1m_no_dedup (points : List Pt) : List Pt :=
  points.map round_to_1_meter

/-- A linear ring: an ordered (closed) sequence of vertices. -/
abbrev LinearRing := List Pt

/-- A GEOS `Geometry`, restricted to the type tags that `buffer.rs`
distinguishes: `Polygon`, `MultiPolygon`, `GeometryCollection`, and
non-polygonal leaves (points, lines). -/
inductive Geometry where
  | point (p : Pt)
  | lineString (coords : List Pt)
  | polygon (exterior : LinearRing) (interiors : List LinearRing)
  | multiPolygon (parts : List Geometry)
  | geometryCollection (parts : List Geometry)

namespace Geometry

/-- Modelled from the spec: GEOS linear-ring validity ("A Ring is a closed
ordered sequence of (x, y) vertices (first == last)").  A ring is accepted
when it is empty, or closed with at least four vertices; polygon
construction (`RingConstructionFailure` in the spec's error categories)
fails on any other ring. -/
def validRing (r : LinearRing) : Bool :=
  r.isEmpty || (decide (4 ≤ r.length) && decide (r.head? = r.getLast?))

/-- Modelled from the spec: `geos::Geometry::create_polygon`, which builds
a polygon from an exterior ring and a list of interior rings and fails
(`RingConstructionFailure`) when a ring is not valid. -/
def create_polygon (exterior : LinearRing) (interiors : List LinearRing) :
    Option Geometry :=
  if validRing exterior && interiors.all validRing then
    some (polygon exterior interiors)
  else none

/-- Shoelace sum of a closed vertex sequence. -/
def shoelace : List Pt → ℚ
  | p :: q :: rest => (p.1 * q.2 - q.1 * p.2) + shoelace (q :: rest)
  | _ => 0

/-- Signed-area-free ring area: half the absolute shoelace sum. -/
def ringArea (r : LinearRing) : ℚ := |shoelace r| / 2

mutual

/-- Modelled from the spec: GEOS `area()` — exterior ring area minus hole
areas for a polygon, zero for zero-dimensional and one-dimensional
geometries, sum over members for composites.  It returns a `Result` in the
bindings; the model is total, so the failure branch of
`area().unwrap_or(0.0)` is unreachable here. -/
def area : Geometry → Option ℚ
  | point _ => some 0
  | lineString _ => some 0
  | polygon exterior interiors =>
      some (ringArea exterior - (interiors.map ringArea).sum)
  | multiPolygon parts => some (areaList parts)
  | geometryCollection parts => some (areaList parts)

/-- Total area of a list of geometries. -/
def areaList : List Geometry → ℚ
  | [] => 0
  | g :: rest => (area g).getD 0 + areaList rest

end

/-- GEOS `get_num_geometries` on a composite. -/
def numGeometries : Geometry → ℕ
  | multiPolygon parts => parts.length
  | geometryCollection parts => parts.length
  | _ => 1

/-- GEOS `get_geometry_n` (0-based) on a composite. -/
def getGeometryN : Geometry → ℕ → Option Geometry
  | multiPolygon parts, i => parts.get? i
  | geometryCollection parts, i => parts.get? i
  | _, _ => none

/-- GEOS `get_interior_ring_n` (0-based): fails beyond the hole count or on
a non-polygon. -/
def getInteriorRingN : Geometry → ℕ → Option LinearRing
  | polygon _ interiors, i => interiors.get? i
  | _, _ => none

/-- GEOS `get_num_interior_rings`. -/
def numInteriorRings : Geometry → ℕ
  | polygon _ interiors => interiors.length
  | _ => 0

/-- The exterior ring of a polygon geometry, `none` otherwise. -/
def exteriorRing : Geometry → Option LinearRing
  | polygon exterior _ => some exterior
  | _ => none

/-- The interior rings of a polygon geometry, `[]` otherwise. -/
def interiorRings : Geometry → List LinearRing
  | polygon _ interiors => interiors
  | _ => []

/-- Whether the geometry's type tag is `Polygon`. -/
def isPolygon : Geometry → Bool
  | polygon _ _ => true
  | _ => false

end Geometry

/-- Dropping the head of a list does not increase its `sizeOf`. -/
theorem sizeOf_drop_one_le (l : List Geometry) : sizeOf (l.drop 1) ≤ sizeOf l := by
  cases l with
  | nil => simp
  | cons a l =>
      simp only [List.drop_succ_cons, List.drop_zero, List.cons.sizeOf_spec]
      omega

mutual

/-- Source `explode_polygons` from `src/buffer.rs`: a `Polygon` yields itself as a
singleton; a `MultiPolygon` or `GeometryCollection` is traversed with
`for i in 1..n { get_geometry_n(i) }` — note the loop starts at index 1,
so member 0 is never visited; any other type yields the empty list.
Since `get_geometry_n i` for `i` in `1..n` enumerates exactly the members
after the first, the loop is modelled as a walk over `parts.drop 1`. -/
def explodePolygons (g : Geometry) : List Geometry :=
  match g with
  | .polygon exterior interiors => [.polygon exterior interiors]
  | .multiPolygon parts => explodeMembers (parts.drop 1)
  | .geometryCollection parts => explodeMembers (parts.drop 1)
  | _ => []
termination_by sizeOf g
decreasing_by
  all_goals
    have h1 := sizeOf_drop_one_le parts
    simp only [Geometry.multiPolygon.sizeOf_spec, Geometry.geometryCollection.sizeOf_spec]
    omega

/-- The body of the `for i in 1..n` loop of `explode_polygons`: push a
`Polygon` member, recurse into a composite member, ignore the rest. -/
def explodeMembers (members : List Geometry) : List Geometry :=
  match members with
  | [] => []
  | sub :: rest =>
      (match sub with
       | .polygon exterior interiors => [Geometry.polygon exterior interiors]
       | .multiPolygon parts => explodePolygons (.multiPolygon parts)
       | .geometryCollection parts => explodePolygons (.geometryCollection parts)
       | _ => []) ++ explodeMembers rest
termination_by sizeOf members
decreasing_by
  all_goals
    simp only [List.cons.sizeOf_spec, Geometry.multiPolygon.sizeOf_spec,
      Geometry.geometryCollection.sizeOf_spec]
    omega

end

/-- Source `remove_small_holes` from `src/buffer.rs`: on a `Polygon`, keep only
the interior rings whose enclosed area is at least `min_area`
(`hole_area >= min_area`), falling back to the original polygon when the
final construction fails; any other geometry is returned unchanged. -/
def remove_small_holes (polygon : Geometry) (min_area : ℚ) : Geometry :=
  match polygon with
  | .polygon exterior interiors =>
      let num_holes := Geometry.numInteriorRings (.polygon exterior interiors)
      let large_holes := (List.range num_holes).foldl
        (fun acc i =>
          match Geometry.getInteriorRingN (.polygon exterior interiors) i with
          | some hole_ring =>
              match Geometry.create_polygon hole_ring [] with
              | some hole_poly =>
                  let hole_area := (Geometry.area hole_poly).getD 0
                  if hole_area ≥ min_area then acc ++ [hole_ring] else acc
              | none => acc
          | none => acc)
        []
      (Geometry.create_polygon exterior large_holes).getD (.polygon exterior interiors)
  | g => g

/-- The exact rational value of `std::f64::consts::PI`, the IEEE-754
double nearest to π. -/
def pi_f64 : ℚ := 884279719003555 / 281474976710656

/-- The hole-area threshold computed inside `build_buffered_geometries`:
`let min_hole_area = std::f64::consts::PI * radius_m * radius_m;`.  It is
derived from the buffer radius; the function takes no independent
hole-area parameter. -/
def min_hole_area (radius_m : ℚ) : ℚ := pi_f64 * radius_m * radius_m

/-- The post-dissolve stage of `build_buffered_geometries`: explode the
dissolved geometry into polygons, then remove from each the holes smaller
than `min_hole_area radius_m`. -/
def postprocessDissolved (dissolved : Geometry) (radius_m : ℚ) : List Geometry :=
  (explodePolygons dissolved).map
    (fun poly => remove_small_holes poly (min_hole_area radius_m))

/-- Source use of Rust `slice::chunks(chunk_size)` in in `build_buffered_geometries`:
consecutive chunks of at most `chunk_size` elements, the last possibly
shorter.  `chunks(0)` panics in Rust; the model returns `[]` there and
every theorem about chunking assumes `0 < chunk_size`. -/
def chunksOf (chunk_size : ℕ) (l : List Pt) : List (List Pt) :=
  if chunk_size = 0 ∨ l = [] then []
  else l.take chunk_size :: chunksOf chunk_size (l.drop chunk_size)
termination_by l.length
decreasing_by
  rename_i h
  push_neg at h
  have hl : 0 < l.length := List.length_pos.mpr h.2
  simp only [List.length_drop]
  omega

/-- Modelled from the spec: buffering a chunk replaces every point with a
disk-approximating buffer shape, overlaps within the chunk being merged by
the buffer operation itself — so the buffered region of a chunk is the
union of the per-point buffer shapes.  The per-point shape (the
`4 × quad_segs`-sided polygon approximating the radius-`radius_m` disk) is
kept abstract as `B`, because the same shape is produced for a point no
matter which chunk contains it. -/
def bufferedRegion (B : Pt → Set Pt) (chunk : List Pt) : Set Pt :=
  ⋃ p ∈ chunk, B p

/-- The region of the dissolved geometry of `build_buffered_geometries`:
each chunk of `points.chunks(chunk_size)` is buffered, and `unary_union`
merges the per-chunk geometries — as regions, the union of the per-chunk
buffered regions. -/
def dissolvedRegion (B : Pt → Set Pt) (points : List Pt) (chunk_size : ℕ) : Set Pt :=
  ⋃ c ∈ chunksOf chunk_size points, bufferedRegion B c

/-! Helper lemmas about rounding and deduplication. -/

/-- Rounding ties-away fixes integers. -/
theorem roundTiesAway_intCast (n : ℤ) : roundTiesAway (n : ℚ) = n := by
  unfold roundTiesAway
  have hhalf : ⌊(1 / 2 : ℚ)⌋ = 0 := by norm_num
  split
  · rw [show -(n : ℚ) + 1 / 2 = ((-n : ℤ) : ℚ) + (1 / 2 : ℚ) by push_cast; ring]
    rw [Int.floor_int_add, hhalf]
    ring
  · rw [show (n : ℚ) + 1 / 2 = ((n : ℤ) : ℚ) + (1 / 2 : ℚ) from rfl]
    rw [Int.floor_int_add, hhalf]
    ring

/-- Truncation toward zero fixes integers. -/
theorem truncToInt_intCast (n : ℤ) : truncToInt (n : ℚ) = n := by
  unfold truncToInt
  split
  · rw [show -(n : ℚ) = ((-n : ℤ) : ℚ) by push_cast; ring]
    rw [Int.floor_intCast]
    ring
  · rw [Int.floor_intCast]

/-- The rounded point of `p`, written with its integer grid indices. -/
theorem round_to_10_meters_eq (p : Pt) :
    round_to_10_meters p =
      (((roundTiesAway (p.1 / 10) * 10 : ℤ) : ℚ), ((roundTiesAway (p.2 / 10) * 10 : ℤ) : ℚ)) := by
  unfold round_to_10_meters
  push_cast
  rfl

/-- Rounding to the 10 m grid is idempotent. -/
theorem round_to_10_meters_idem (p : Pt) :
    round_to_10_meters (round_to_10_meters p) = round_to_10_meters p := by
  unfold round_to_10_meters
  have h : ∀ k : ℤ, ((roundTiesAway ((k : ℚ) * 10 / 10) : ℚ)) * 10 = (k : ℚ) * 10 := by
    intro k
    rw [mul_div_assoc, show (10 : ℚ) / 10 = 1 by norm_num, mul_one, roundTiesAway_intCast]
  simp only [h]

/-- The stored point of a `HashablePoint` built from `p` is the cast of its
integer key. -/
theorem ofPoint_original_eq_key (p : Pt) :
    (HashablePoint.ofPoint p).original =
      (((HashablePoint.ofPoint p).x_rounded : ℚ), ((HashablePoint.ofPoint p).y_rounded : ℚ)) := by
  unfold HashablePoint.ofPoint
  simp only [round_to_10_meters_eq p]
  simp only [truncToInt_intCast]

/-- Building a `HashablePoint` from an already-rounded point gives the same
`HashablePoint`. -/
theorem ofPoint_round_to_10_meters (p : Pt) :
    HashablePoint.ofPoint (round_to_10_meters p) = HashablePoint.ofPoint p := by
  unfold HashablePoint.ofPoint
  rw [round_to_10_meters_idem]

/-- Key inequality, as the relation used for set-collection invariants. -/
def keyNe (a b : HashablePoint) : Prop := a.key ≠ b.key

/-- Folding key-unique insertion only ever returns elements of the
accumulator or of the input list. -/
theorem mem_foldl_insertByKey (l : List HashablePoint) :
    ∀ acc x, x ∈ l.foldl insertByKey acc → x ∈ acc ∨ x ∈ l := by
  induction l with
  | nil => intro acc x hx; exact Or.inl hx
  | cons h t ih =>
      intro acc x hx
      rcases ih (insertByKey acc h) x hx with hmem | hmem
      · unfold insertByKey at hmem
        split at hmem
        · exact Or.inl hmem
        · rcases List.mem_append.mp hmem with hmem | hmem
          · exact Or.inl hmem
          · exact Or.inr (by simp at hmem; simp [hmem])
      · exact Or.inr (List.mem_cons_of_mem _ hmem)

/-- Every element of a collected set came from the input list. -/
theorem mem_collectSet (l : List HashablePoint) (x : HashablePoint)
    (hx : x ∈ collectSet l) : x ∈ l := by
  rcases mem_foldl_insertByKey l [] x hx with h | h
  · cases h
  · exact h

/-- Folding key-unique insertion preserves pairwise-distinct keys. -/
theorem pairwise_foldl_insertByKey (l : List HashablePoint) :
    ∀ acc, acc.Pairwise keyNe → (l.foldl insertByKey acc).Pairwise keyNe := by
  induction l with
  | nil => intro acc hacc; exact hacc
  | cons h t ih =>
      intro acc hacc
      refine ih (insertByKey acc h) ?_
      unfold insertByKey
      split
      · exact hacc
      · rename_i hany
        rw [List.pairwise_append]
        refine ⟨hacc, List.pairwise_singleton _ _, ?_⟩
        intro a ha b hb
        rw [List.mem_singleton] at hb
        subst hb
        intro hk
        exact hany (List.any_eq_true.mpr ⟨a, ha, by simp [hk]⟩)

/-- The collected set has pairwise-distinct keys. -/
theorem pairwise_collectSet (l : List HashablePoint) :
    (collectSet l).Pairwise keyNe :=
  pairwise_foldl_insertByKey l [] List.Pairwise.nil

/-- Folding key-unique insertion over a list whose keys are already
pairwise distinct from each other and from the accumulator appends it
unchanged. -/
theorem foldl_insertByKey_of_pairwise (l : List HashablePoint) :
    ∀ acc, (acc ++ l).Pairwise keyNe → l.foldl insertByKey acc = acc ++ l := by
  induction l with
  | nil => intro acc _; simp
  | cons h t ih =>
      intro acc hacc
      have hstep : insertByKey acc h = acc ++ [h] := by
        unfold insertByKey
        rw [if_neg]
        intro hany
        rcases List.any_eq_true.mp hany with ⟨a, ha, hk⟩
        have := (List.pairwise_append.mp hacc).2.2 a ha h (List.mem_cons_self _ _)
        exact this (by simpa using hk)
      rw [List.foldl_cons, hstep, ih (acc ++ [h]) (by simpa using hacc)]
      simp

/-- Collecting a list whose keys are already pairwise distinct returns it
unchanged. -/
theorem collectSet_of_pairwise (l : List HashablePoint)
    (hl : l.Pairwise keyNe) : collectSet l = l :=
  foldl_insertByKey_of_pairwise l [] (by simpa using hl)

/-- Key-unique insertion grows the accumulator by at most one element. -/
theorem length_insertByKey_le (acc : List HashablePoint) (h : HashablePoint) :
    (insertByKey acc h).length ≤ acc.length + 1 := by
  unfold insertByKey
  split
  · omega
  · simp

/-- The collected set is no longer than the input. -/
theorem length_collectSet_le (l : List HashablePoint) :
    (collectSet l).length ≤ l.length := by
  have H : ∀ acc, (l.foldl insertByKey acc).length ≤ acc.length + l.length := by
    induction l with
    | nil => intro acc; simp
    | cons h t ih =>
        intro acc
        calc (t.foldl insertByKey (insertByKey acc h)).length
            ≤ (insertByKey acc h).length + t.length := ih _
          _ ≤ acc.length + 1 + t.length := by
              have := length_insertByKey_le acc h
              omega
          _ = acc.length + (h :: t).length := by simp; omega
  simpa using H []

/-- The deduplicated output of `sanitize`, in both the empty and the
non-empty branch. -/
theorem sanitize_fst (points : List Pt) :
    (sanitize points).1 =
      (collectSet (points.map HashablePoint.ofPoint)).map HashablePoint.original := by
  unfold sanitize
  dsimp only
  split
  · rename_i h
    have hnil : points = [] := List.length_eq_zero.mp h
    subst hnil
    rfl
  · rfl

/-- The non-empty branch of `sanitize`, output and statistics. -/
theorem sanitize_of_ne_nil (points : List Pt) (h : points ≠ []) :
    sanitize points =
      ((collectSet (points.map HashablePoint.ofPoint)).map HashablePoint.original,
       { final_count :=
           ((collectSet (points.map HashablePoint.ofPoint)).map HashablePoint.original).length
         removed_count :=
           points.length -
             ((collectSet (points.map HashablePoint.ofPoint)).map HashablePoint.original).length
         removal_percentage :=
           (((points.length -
               ((collectSet (points.map HashablePoint.ofPoint)).map
                 HashablePoint.original).length : ℕ) : ℚ) / (points.length : ℚ)) * 100 }) := by
  unfold sanitize
  rw [if_neg]
  simpa [List.length_eq_zero] using h

/-- The integer key of a freshly built `HashablePoint`, as a multiple of 10. -/
theorem ofPoint_key_mul10 (p : Pt) :
    (HashablePoint.ofPoint p).x_rounded = roundTiesAway (p.1 / 10) * 10 ∧
    (HashablePoint.ofPoint p).y_rounded = roundTiesAway (p.2 / 10) * 10 := by
  unfold HashablePoint.ofPoint
  simp only [round_to_10_meters_eq p]
  exact ⟨truncToInt_intCast _, truncToInt_intCast _⟩

/-- Distinct multiples of ten differ by at least ten, over the rationals. -/
theorem abs_sub_mul10_ge (a b : ℤ) (hne : a * 10 ≠ b * 10) :
    (10 : ℚ) ≤ |((a * 10 : ℤ) : ℚ) - ((b * 10 : ℤ) : ℚ)| := by
  have hab : a ≠ b := fun h => hne (by rw [h])
  have h1 : (1 : ℤ) ≤ |a - b| := Int.one_le_abs (sub_ne_zero.mpr hab)
  have h2 : (10 : ℤ) ≤ |a * 10 - b * 10| := by
    rw [show a * 10 - b * 10 = (a - b) * 10 by ring, abs_mul]
    simp only [show |(10 : ℤ)| = 10 by decide]
    nlinarith
  calc (10 : ℚ) = ((10 : ℤ) : ℚ) := by norm_num
    _ ≤ ((|a * 10 - b * 10| : ℤ) : ℚ) := by exact_mod_cast h2
    _ = |((a * 10 : ℤ) : ℚ) - ((b * 10 : ℤ) : ℚ)| := by push_cast; rfl

/-- C5: every output point of round-and-dedup carries the rounded
(grid-aligned) coordinates of its cell — it is `round_to_10_meters` of some
input point — and any two distinct output points differ by at least the
grid size 10 in x or in y. -/
theorem sanitize_output_rounded_and_separated (points : List Pt) :
    (∀ q ∈ (sanitize points).1, ∃ p ∈ points, q = round_to_10_meters p) ∧
    (∀ q1 ∈ (sanitize points).1, ∀ q2 ∈ (sanitize points).1, q1 ≠ q2 →
      10 ≤ |q1.1 - q2.1| ∨ 10 ≤ |q1.2 - q2.2|) := by
  rw [sanitize_fst]
  constructor
  · intro q hq
    rcases List.mem_map.mp hq with ⟨h, hmem, rfl⟩
    rcases List.mem_map.mp (mem_collectSet _ _ hmem) with ⟨p, hp, rfl⟩
    exact ⟨p, hp, rfl⟩
  · intro q1 hq1 q2 hq2 hne
    rcases List.mem_map.mp hq1 with ⟨h1, hmem1, rfl⟩
    rcases List.mem_map.mp hq2 with ⟨h2, hmem2, rfl⟩
    have hcl1 := mem_collectSet _ _ hmem1
    have hcl2 := mem_collectSet _ _ hmem2
    rcases List.mem_map.mp hcl1 with ⟨p1, _, rfl⟩
    rcases List.mem_map.mp hcl2 with ⟨p2, _, rfl⟩
    have hhne : HashablePoint.ofPoint p1 ≠ HashablePoint.ofPoint p2 := by
      intro h; exact hne (by rw [h])
    have hsymm : Symmetric keyNe := fun a b hab => fun h => hab h.symm
    have hkey : keyNe (HashablePoint.ofPoint p1) (HashablePoint.ofPoint p2) :=
      (pairwise_collectSet _).forall hsymm hmem1 hmem2 hhne
    have hx1 := ofPoint_key_mul10 p1
    have hx2 := ofPoint_key_mul10 p2
    have ho1 := ofPoint_original_eq_key p1
    have ho2 := ofPoint_original_eq_key p2
    rw [ho1, ho2]
    unfold keyNe HashablePoint.key at hkey
    by_cases hxx :
        (HashablePoint.ofPoint p1).x_rounded = (HashablePoint.ofPoint p2).x_rounded
    · have hyy : (HashablePoint.ofPoint p1).y_rounded ≠
          (HashablePoint.ofPoint p2).y_rounded := by
        intro h; exact hkey (by rw [hxx, h])
      right
      rw [hx1.2, hx2.2] at hyy ⊢
      simpa using abs_sub_mul10_ge _ _ hyy
    · left
      rw [hx1.1, hx2.1] at hxx ⊢
      simpa using abs_sub_mul10_ge _ _ hxx

/-- Re-collecting an already deduplicated output changes nothing. -/
theorem sanitize_fst_idem (P : List Pt) :
    (sanitize (sanitize P).1).1 = (sanitize P).1 := by
  rw [sanitize_fst (sanitize P).1, sanitize_fst P]
  have hmapmap :
      ((collectSet (P.map HashablePoint.ofPoint)).map HashablePoint.original).map
          HashablePoint.ofPoint
        = collectSet (P.map HashablePoint.ofPoint) := by
    rw [List.map_map]
    have : ∀ h ∈ collectSet (P.map HashablePoint.ofPoint),
        (HashablePoint.ofPoint ∘ HashablePoint.original) h = id h := by
      intro h hmem
      rcases List.mem_map.mp (mem_collectSet _ _ hmem) with ⟨p, _, rfl⟩
      show HashablePoint.ofPoint (HashablePoint.ofPoint p).original = HashablePoint.ofPoint p
      show HashablePoint.ofPoint (round_to_10_meters p) = HashablePoint.ofPoint p
      exact ofPoint_round_to_10_meters p
    rw [List.map_congr_left this, List.map_id]
  rw [hmapmap, collectSet_of_pairwise _ (pairwise_collectSet _)]

/-- C6: round-and-dedup is idempotent — deduplicating the output of
`sanitize` again yields the same point set. -/
theorem sanitize_idempotent (P : List Pt) :
    ∀ q : Pt, q ∈ (sanitize (sanitize P).1).1 ↔ q ∈ (sanitize P).1 := by
  intro q
  rw [sanitize_fst_idem]

/-- C7: the empty input yields the empty output and all-zero statistics
without division; in general the final count is the output length, final
plus removed counts recover the original count exactly, and on non-empty
input the removal percentage is removed over original times 100. -/
theorem sanitize_stats_spec (P : List Pt) :
    sanitize ([] : List Pt) =
      ([], { final_count := 0, removed_count := 0, removal_percentage := 0 }) ∧
    (sanitize P).2.final_count = (sanitize P).1.length ∧
    (sanitize P).2.removed_count + (sanitize P).2.final_count = P.length ∧
    (P ≠ [] → (sanitize P).2.removal_percentage =
      (((sanitize P).2.removed_count : ℚ) / (P.length : ℚ)) * 100) := by
  refine ⟨rfl, ?_⟩
  by_cases hP : P = []
  · subst hP
    refine ⟨rfl, rfl, ?_⟩
    intro h; exact absurd rfl h
  · rw [sanitize_of_ne_nil P hP]
    have hle :
        ((collectSet (P.map HashablePoint.ofPoint)).map HashablePoint.original).length
          ≤ P.length := by
      rw [List.length_map]
      calc (collectSet (P.map HashablePoint.ofPoint)).length
          ≤ (P.map HashablePoint.ofPoint).length := length_collectSet_le _
        _ = P.length := List.length_map _ _
    refine ⟨rfl, ?_, fun _ => rfl⟩
    dsimp only
    omega

/-- Concrete input points for the deduplication witnesses. -/
def ptsW : List Pt := [((12 : ℚ), (17 : ℚ)), ((26 : ℚ), (14 : ℚ))]

/-- Concrete evaluation of `sanitize` on `ptsW`. -/
theorem sanitize_ptsW_eval :
    (sanitize ptsW).1 = [((10 : ℚ), (20 : ℚ)), ((30 : ℚ), (10 : ℚ))] := by
  norm_num [ptsW, sanitize, collectSet, insertByKey, HashablePoint.ofPoint,
    HashablePoint.key, round_to_10_meters, roundTiesAway, truncToInt]

/-- Witness for C5 on two concrete points. -/
theorem sanitize_output_rounded_and_separated_witness :
    ((10 : ℚ), (20 : ℚ)) ∈ (sanitize ptsW).1 ∧
    ((30 : ℚ), (10 : ℚ)) ∈ (sanitize ptsW).1 ∧
    (((10 : ℚ), (20 : ℚ)) : Pt) ≠ (((30 : ℚ), (10 : ℚ)) : Pt) ∧
    (∃ p ∈ ptsW, (((10 : ℚ), (20 : ℚ)) : Pt) = round_to_10_meters p) ∧
    (10 ≤ |(((10 : ℚ), (20 : ℚ)) : Pt).1 - (((30 : ℚ), (10 : ℚ)) : Pt).1| ∨
      10 ≤ |(((10 : ℚ), (20 : ℚ)) : Pt).2 - (((30 : ℚ), (10 : ℚ)) : Pt).2|) := by
  have h1 : (((10 : ℚ), (20 : ℚ)) : Pt) ∈ (sanitize ptsW).1 := by
    rw [sanitize_ptsW_eval]
    simp
  have h2 : (((30 : ℚ), (10 : ℚ)) : Pt) ∈ (sanitize ptsW).1 := by
    rw [sanitize_ptsW_eval]
    simp
  have hne : (((10 : ℚ), (20 : ℚ)) : Pt) ≠ (((30 : ℚ), (10 : ℚ)) : Pt) := by
    norm_num [Prod.ext_iff]
  refine ⟨h1, h2, hne, (sanitize_output_rounded_and_separated ptsW).1 _ h1, ?_⟩
  exact (sanitize_output_rounded_and_separated ptsW).2 _ h1 _ h2 hne

/-- Witness for C7 on a concrete non-empty input. -/
theorem sanitize_stats_spec_witness :
    ptsW ≠ [] ∧
    (sanitize ptsW).2.removal_percentage =
      (((sanitize ptsW).2.removed_count : ℚ) / (ptsW.length : ℚ)) * 100 :=
  ⟨by simp [ptsW], (sanitize_stats_spec ptsW).2.2.2 (by simp [ptsW])⟩

/-! Helper lemmas about the hole filter. -/

/-- The condition under which the loop of `remove_small_holes` retains an
interior ring: its hole polygon can be built (the ring is valid) and its
area reaches the threshold. -/
def keepHole (min_area : ℚ) (r : LinearRing) : Bool :=
  Geometry.validRing r && decide (min_area ≤ Geometry.ringArea r)

/-- Semantic form of the hole-loop body, as a function of the looked-up
ring (`none` when the lookup failed). -/
def holeF (min_area : ℚ) (acc : List LinearRing) (o : Option LinearRing) : List LinearRing :=
  match o with
  | some hole_ring =>
      match Geometry.create_polygon hole_ring [] with
      | some hole_poly =>
          if (Geometry.area hole_poly).getD 0 ≥ min_area then acc ++ [hole_ring] else acc
      | none => acc
  | none => acc

/-- Folding over `List.range l.length` while reading `l.get? i` is a fold
over `l` itself. -/
theorem foldl_range_get {α β : Type} (l : List α) (F : β → Option α → β) :
    ∀ acc0 : β,
      (List.range l.length).foldl (fun acc i => F acc (l.get? i)) acc0
        = l.foldl (fun acc x => F acc (some x)) acc0 := by
  induction l with
  | nil => intro acc0; rfl
  | cons x t ih =>
      intro acc0
      rw [List.length_cons, List.range_succ_eq_map, List.foldl_cons, List.foldl_map]
      have hx : (x :: t).get? 0 = some x := rfl
      simp only [hx, List.get?_cons_succ]
      exact ih (F acc0 (some x))

/-- Folding conditional append collects the filtered elements behind the
accumulator. -/
theorem foldl_filter_append {α : Type} (p : α → Bool) (l : List α) :
    ∀ acc0 : List α,
      l.foldl (fun acc x => if p x then acc ++ [x] else acc) acc0 = acc0 ++ l.filter p := by
  induction l with
  | nil => intro acc0; simp
  | cons x t ih =>
      intro acc0
      rw [List.foldl_cons, List.filter_cons]
      by_cases hp : p x
      · rw [if_pos hp, if_pos hp, ih (acc0 ++ [x])]
        simp
      · rw [if_neg hp, if_neg hp, ih acc0]

/-- One pass of the hole-loop body on a found ring equals the conditional
append on `keepHole`. -/
theorem holeF_some (m : ℚ) (acc : List LinearRing) (r : LinearRing) :
    holeF m acc (some r) = if keepHole m r then acc ++ [r] else acc := by
  unfold holeF Geometry.create_polygon keepHole
  by_cases hv : Geometry.validRing r
  · simp only [hv, List.all_nil, Bool.and_true, Bool.true_and, if_true]
    have harea : (Geometry.area (Geometry.polygon r [])).getD 0 = Geometry.ringArea r := by
      simp [Geometry.area]
    rw [harea]
    simp [ge_iff_le]
  · simp only [hv, Bool.false_and, if_false]
    simp [hv]

/-- Master characterization of `remove_small_holes` on a polygon: it
rebuilds the polygon from the original exterior ring and the interior
rings that pass `keepHole`, falling back to the original polygon when the
rebuild fails. -/
theorem remove_small_holes_polygon (e : LinearRing) (ins : List LinearRing) (m : ℚ) :
    remove_small_holes (.polygon e ins) m =
      (Geometry.create_polygon e (ins.filter (keepHole m))).getD (.polygon e ins) := by
  unfold remove_small_holes
  dsimp only
  simp only [Geometry.numInteriorRings, Geometry.getInteriorRingN]
  rw [List.foldl_ext _ (fun acc i => holeF m acc (ins.get? i)) []
    (by
      intro acc i _
      dsimp only
      cases ins.get? i with
      | none => rfl
      | some r => cases Geometry.create_polygon r [] <;> rfl)]
  rw [foldl_range_get ins (holeF m)]
  rw [List.foldl_ext _ (fun acc x => if keepHole m x then acc ++ [x] else acc) []
    (by intro acc x _; exact holeF_some m acc x)]
  rw [foldl_filter_append]
  rfl

/-- Every ring that passes `keepHole` is valid, so the rebuild succeeds
whenever the exterior ring is valid. -/
theorem remove_small_holes_of_validExt (e : LinearRing) (ins : List LinearRing) (m : ℚ)
    (hext : Geometry.validRing e = true) :
    remove_small_holes (.polygon e ins) m = .polygon e (ins.filter (keepHole m)) := by
  rw [remove_small_holes_polygon]
  have hall : (ins.filter (keepHole m)).all Geometry.validRing = true := by
    rw [List.all_eq_true]
    intro r hr
    have hmem := List.of_mem_filter hr
    unfold keepHole at hmem
    exact (by simpa using hmem :
      Geometry.validRing r = true ∧ m ≤ Geometry.ringArea r).1
  unfold Geometry.create_polygon
  rw [if_pos]
  · rfl
  · rw [hext, hall]; rfl

/-- A valid square exterior ring used in concrete instances. -/
def extSquare : LinearRing := [(0, 0), (200, 0), (200, 200), (0, 200), (0, 0)]

/-- A rectangle ring of width `pi_f64` and height 1: its enclosed area is
exactly `pi_f64`, the hole-area threshold at radius 1. -/
def holeExact : LinearRing := [(0, 0), (pi_f64, 0), (pi_f64, 1), (0, 1), (0, 0)]

/-- A small valid square hole of area 16. -/
def holeSmall : LinearRing := [(1, 1), (5, 1), (5, 5), (1, 5), (1, 1)]

/-- An invalid ring: three vertices, not closed — polygon construction
from it fails. -/
def ringBad : LinearRing := [(0, 0), (1, 0), (2, 0)]

/-- C2: with the threshold `min_hole_area radius_m` — computed in
`build_buffered_geometries` as π·radius_m² from the buffer radius and
never independently configured — the hole filter retains an interior ring
whose area computation succeeds exactly when its area reaches the
threshold, dropping it when the area is strictly below; and the
post-dissolve pipeline stage applies `remove_small_holes` with exactly
that derived threshold. -/
theorem hole_filter_threshold (radius_m : ℚ) (e : LinearRing) (ins : List LinearRing)
    (hext : Geometry.validRing e = true) :
    (∀ r ∈ ins, Geometry.validRing r = true →
      (r ∈ Geometry.interiorRings
          (remove_small_holes (.polygon e ins) (min_hole_area radius_m)) ↔
        pi_f64 * radius_m * radius_m ≤ Geometry.ringArea r)) ∧
    (∀ dissolved : Geometry, ∀ g ∈ postprocessDissolved dissolved radius_m,
      ∃ p ∈ explodePolygons dissolved, g = remove_small_holes p (min_hole_area radius_m)) := by
  constructor
  · intro r hr hv
    rw [remove_small_holes_of_validExt e ins _ hext]
    show r ∈ ins.filter (keepHole (min_hole_area radius_m)) ↔ _
    rw [List.mem_filter]
    unfold keepHole min_hole_area
    simp [hr, hv]
  · intro dissolved g hg
    rcases List.mem_map.mp hg with ⟨p, hp, rfl⟩
    exact ⟨p, hp, rfl⟩

/-- Witness for C2 at radius 1 with a concrete polygon. -/
theorem hole_filter_threshold_witness :
    Geometry.validRing extSquare = true ∧
    holeSmall ∈ [holeSmall] ∧ Geometry.validRing holeSmall = true ∧
    (holeSmall ∈ Geometry.interiorRings
        (remove_small_holes (.polygon extSquare [holeSmall]) (min_hole_area 1)) ↔
      pi_f64 * 1 * 1 ≤ Geometry.ringArea holeSmall) :=
  ⟨by decide, by decide, by decide,
    (hole_filter_threshold 1 extSquare [holeSmall] (by decide)).1 holeSmall
      (by decide) (by decide)⟩

/-- C3 as stated fails on the code: a hole whose area is exactly π·r²
(radius 1) is retained by the filter, not removed — the loop keeps a hole
when `hole_area >= min_area`, so the boundary case survives. -/
theorem hole_exact_area_retained :
    Geometry.ringArea holeExact = min_hole_area 1 ∧
    Geometry.interiorRings
        (remove_small_holes (.polygon extSquare [holeExact]) (min_hole_area 1))
      = [holeExact] := by
  have hsh : Geometry.shoelace holeExact = 2 * pi_f64 := by
    simp [Geometry.shoelace, holeExact]
    ring
  have hpos : (0 : ℚ) ≤ 2 * pi_f64 := by norm_num [pi_f64]
  have harea : Geometry.ringArea holeExact = min_hole_area 1 := by
    unfold Geometry.ringArea min_hole_area
    rw [hsh, abs_of_nonneg hpos]
    ring
  refine ⟨harea, ?_⟩
  rw [remove_small_holes_of_validExt _ _ _ (by decide)]
  show ([holeExact].filter (keepHole (min_hole_area 1))) = [holeExact]
  rw [List.filter_cons, if_pos]
  · rfl
  · unfold keepHole
    rw [show Geometry.validRing holeExact = true by decide]
    simp [harea]

/-- C3 amended: with one valid interior ring, a ring of area exactly π·r²
is retained, one of area π·r² + ε is retained, and one of area π·r² − ε
(ε > 0) is removed. -/
theorem hole_threshold_boundary (radius_m eps : ℚ) (e r : LinearRing)
    (hext : Geometry.validRing e = true) (hr : Geometry.validRing r = true)
    (heps : 0 < eps) :
    (Geometry.ringArea r = min_hole_area radius_m →
      Geometry.interiorRings
        (remove_small_holes (.polygon e [r]) (min_hole_area radius_m)) = [r]) ∧
    (Geometry.ringArea r = min_hole_area radius_m + eps →
      Geometry.interiorRings
        (remove_small_holes (.polygon e [r]) (min_hole_area radius_m)) = [r]) ∧
    (Geometry.ringArea r = min_hole_area radius_m - eps →
      Geometry.interiorRings
        (remove_small_holes (.polygon e [r]) (min_hole_area radius_m)) = []) := by
  rw [remove_small_holes_of_validExt e [r] _ hext]
  show (_ → ([r].filter (keepHole (min_hole_area radius_m))) = [r]) ∧
    (_ → ([r].filter (keepHole (min_hole_area radius_m))) = [r]) ∧
    (_ → ([r].filter (keepHole (min_hole_area radius_m))) = [])
  unfold keepHole
  refine ⟨?_, ?_, ?_⟩
  · intro ha
    rw [List.filter_cons]
    rw [if_pos (by simp [hr, ha])]
    rfl
  · intro ha
    rw [List.filter_cons]
    rw [if_pos (by simp [hr, ha]; linarith)]
    rfl
  · intro ha
    rw [List.filter_cons]
    rw [if_neg (by simp [hr, ha]; linarith)]
    rfl

/-- Witness for C3 amended: the boundary case at radius 1. -/
theorem hole_threshold_boundary_witness :
    Geometry.validRing extSquare = true ∧ Geometry.validRing holeExact = true ∧
    (0 : ℚ) < 1 ∧
    (Geometry.ringArea holeExact = min_hole_area 1 →
      Geometry.interiorRings
        (remove_small_holes (.polygon extSquare [holeExact]) (min_hole_area 1))
        = [holeExact]) :=
  ⟨by decide, by decide, by norm_num,
    (hole_threshold_boundary 1 1 extSquare holeExact (by decide) (by decide)
      (by norm_num)).1⟩

/-- C4: an interior ring whose retrieval, polygon construction, or area
computation fails is dropped from the output rather than retained, and the
failure does not abort the filter — the filtered polygon is still built
from the original exterior ring. -/
theorem failed_hole_dropped (e : LinearRing) (ins : List LinearRing) (m : ℚ)
    (r : LinearRing) (hext : Geometry.validRing e = true) (_hr : r ∈ ins)
    (hfail : Geometry.create_polygon r [] = none ∨
      Geometry.area (.polygon r []) = none) :
    r ∉ Geometry.interiorRings (remove_small_holes (.polygon e ins) m) ∧
    remove_small_holes (.polygon e ins) m = .polygon e (ins.filter (keepHole m)) := by
  have hinv : Geometry.validRing r = false := by
    rcases hfail with hf | hf
    · cases hcv : Geometry.validRing r with
      | false => rfl
      | true => simp [Geometry.create_polygon, hcv] at hf
    · simp [Geometry.area] at hf
  refine ⟨?_, remove_small_holes_of_validExt e ins m hext⟩
  rw [remove_small_holes_of_validExt e ins m hext]
  show r ∉ ins.filter (keepHole m)
  intro hmem
  have hkeep := List.of_mem_filter hmem
  unfold keepHole at hkeep
  rw [hinv] at hkeep
  simp at hkeep

/-- Witness for C4: an unclosed ring is dropped while a polygon is still
produced. -/
theorem failed_hole_dropped_witness :
    Geometry.validRing extSquare = true ∧ ringBad ∈ [ringBad, holeSmall] ∧
    Geometry.create_polygon ringBad [] = none ∧
    ringBad ∉ Geometry.interiorRings
      (remove_small_holes (.polygon extSquare [ringBad, holeSmall]) 20) :=
  ⟨by decide, by decide, by rfl,
    (failed_hole_dropped extSquare [ringBad, holeSmall] 20 ringBad (by decide)
      (by decide) (Or.inl (by rfl))).1⟩

/-- C9: the hole filter keeps the original exterior ring unchanged, and
the interior rings of the output form a sublist — same relative order —
of the input interior rings. -/
theorem hole_filter_frame (e : LinearRing) (ins : List LinearRing) (m : ℚ) :
    Geometry.exteriorRing (remove_small_holes (.polygon e ins) m) = some e ∧
    List.Sublist (Geometry.interiorRings (remove_small_holes (.polygon e ins) m)) ins := by
  rw [remove_small_holes_polygon]
  unfold Geometry.create_polygon
  split
  · exact ⟨rfl, List.filter_sublist ins⟩
  · exact ⟨rfl, List.Sublist.refl ins⟩

/-- C10: when rebuilding the filtered polygon fails, the original polygon
is returned unchanged — its holes, small ones included, still present —
and a non-polygon input is returned unchanged. -/
theorem hole_filter_fallback (g : Geometry) (e : LinearRing) (ins : List LinearRing)
    (m : ℚ)
    (hfail : Geometry.create_polygon e (ins.filter (keepHole m)) = none)
    (hnp : Geometry.isPolygon g = false) :
    remove_small_holes (.polygon e ins) m = .polygon e ins ∧
    remove_small_holes g m = g := by
  constructor
  · rw [remove_small_holes_polygon, hfail]
    rfl
  · cases g with
    | polygon e2 i2 => simp [Geometry.isPolygon] at hnp
    | point p => rfl
    | lineString c => rfl
    | multiPolygon parts => rfl
    | geometryCollection parts => rfl

/-- Witness for C10: an unclosed exterior ring makes the rebuild fail, so
the below-threshold hole survives; a point geometry passes through. -/
theorem hole_filter_fallback_witness :
    Geometry.create_polygon ringBad ([holeSmall].filter (keepHole 20)) = none ∧
    Geometry.isPolygon (.point ((0 : ℚ), (0 : ℚ))) = false ∧
    remove_small_holes (.polygon ringBad [holeSmall]) 20 = .polygon ringBad [holeSmall] ∧
    remove_small_holes (.point ((0 : ℚ), (0 : ℚ))) 20 = .point ((0 : ℚ), (0 : ℚ)) := by
  have hfail : Geometry.create_polygon ringBad ([holeSmall].filter (keepHole 20)) = none := by
    unfold Geometry.create_polygon
    rw [if_neg]
    rw [show Geometry.validRing ringBad = false by decide]
    simp
  have h := hole_filter_fallback (.point ((0 : ℚ), (0 : ℚ))) ringBad [holeSmall] 20 hfail rfl
  exact ⟨hfail, rfl, h.1, h.2⟩

/-- A concrete simple polygon. -/
def polyA : Geometry := .polygon [(0, 0), (4, 0), (4, 4), (0, 4), (0, 0)] []

/-- Another concrete simple polygon, distinct from `polyA`. -/
def polyB : Geometry := .polygon [(7, 7), (9, 7), (9, 9), (7, 9), (7, 7)] []

/-- C1 fails on the code: exploding a two-member `MultiPolygon` returns
only the second member, because the `for i in 1..n` loop of
`explode_polygons` never visits member index 0 — contradicting the
function's own documentation ("Extracts all Polygon parts").  The other
clauses hold: a simple polygon yields itself as a singleton and a
non-polygonal geometry yields the empty list. -/
theorem explode_drops_first_member :
    explodePolygons (.multiPolygon [polyA, polyB]) = [polyB] ∧
    polyA ∉ explodePolygons (.multiPolygon [polyA, polyB]) ∧
    explodePolygons polyA = [polyA] ∧
    explodePolygons (.point ((0 : ℚ), (0 : ℚ))) = [] := by
  refine ⟨?_, ?_, ?_, ?_⟩
  · simp [explodePolygons, explodeMembers, polyA, polyB]
  · simp [explodePolygons, explodeMembers, polyA, polyB]
  · simp [explodePolygons, polyA]
  · simp [explodePolygons]

/-- Appending the chunks of a list reassembles the list. -/
theorem flatten_chunksOf (k : ℕ) (hk : 0 < k) (l : List Pt) : (chunksOf k l).flatten = l := by
  have H : ∀ n, ∀ l : List Pt, l.length ≤ n → (chunksOf k l).flatten = l := by
    intro n
    induction n with
    | zero =>
        intro l hl
        have hnil : l = [] := List.length_eq_zero.mp (Nat.le_zero.mp hl)
        subst hnil
        rw [chunksOf]
        simp
    | succ n ih =>
        intro l hl
        rw [chunksOf]
        by_cases hnil : l = []
        · rw [if_pos (Or.inr hnil)]
          simp [hnil]
        · rw [if_neg (not_or.mpr ⟨by omega, hnil⟩)]
          have hlen : (l.drop k).length ≤ n := by
            rw [List.length_drop]
            have : 0 < l.length := List.length_pos.mpr hnil
            omega
          rw [List.flatten_cons, ih (l.drop k) hlen]
          exact List.take_append_drop k l
  exact H l.length l le_rfl

/-- C8: the dissolved region produced by chunked buffering is independent
of the chunk size used to partition the points — it always equals the
buffered region of the whole point set. -/
theorem dissolved_region_chunk_invariant (B : Pt → Set Pt) (points : List Pt)
    (chunk_size : ℕ) (hk : 0 < chunk_size) :
    dissolvedRegion B points chunk_size = bufferedRegion B points := by
  unfold dissolvedRegion bufferedRegion
  ext x
  simp only [Set.mem_iUnion, exists_prop]
  constructor
  · rintro ⟨c, hc, p, hp, hx⟩
    refine ⟨p, ?_, hx⟩
    rw [← flatten_chunksOf chunk_size hk points]
    exact List.mem_flatten.mpr ⟨c, hc, hp⟩
  · rintro ⟨p, hp, hx⟩
    rw [← flatten_chunksOf chunk_size hk points] at hp
    rcases List.mem_flatten.mp hp with ⟨c, hc, hpc⟩
    exact ⟨c, hc, p, hpc, hx⟩

/-- Witness for C8 with three points and chunk size two. -/
theorem dissolved_region_chunk_invariant_witness :
    0 < 2 ∧
    dissolvedRegion (fun p => {p}) [((0 : ℚ), (0 : ℚ)), (1, 1), (2, 2)] 2
      = bufferedRegion (fun p => {p}) [((0 : ℚ), (0 : ℚ)), (1, 1), (2, 2)] :=
  ⟨by decide, dissolved_region_chunk_invariant _ _ 2 (by decide)⟩

end FogOfWar
